import Mathlib

/-!
Chunk cache of `src/lib/lru.hpp` (class `LRU`).

A shallow embedding of the class `LRU<N>`: the key derivation `key`, the
eviction step `_lru_policy`, the recency update `_update_key_last_access`,
and the two public operations `get` and `put`, followed by the properties
of the specification that are checked against them.

Modelling conventions.

* `int` arguments are integers; `key` is bitwise exclusive-or, which cannot
  overflow, so no reduction modulo `2^32` is involved.  The pass of the key
  through `size_t` in `_update_key_last_access` converts back to the same
  `int` when it is used as a map key, so it is the identity on keys.
* `size_t` sizes are natural numbers.
* A `std::unordered_map<int, V>` is an association list with at most one
  entry per key: `find` is `umFind`, `emplace` (which inserts only when the
  key is absent and otherwise leaves the map untouched) is `umEmplace`,
  `erase(key)` is `umErase`, `size()` is the length.
* The `std::list<Item>` is a list of `Cell`s.  Every cell carries the
  identity `addr` of its list node; a `std::list<Item>::iterator` is the
  identity of the node it designates.  A node that `push_back` allocates for
  a key without index entry gets an identity not used before (`fresh`).
* `std::chrono::system_clock::now()` is a logical clock: the constructor of
  `Item` reads `clock` and the clock advances by one.
* For a key with an index entry, `_update_key_last_access` erases the node
  that entry designates, reads the `Item` of that very node through the same
  iterator and appends a copy of it.  C++ gives no meaning to a read through
  an erased iterator; the model follows an implementation that does not check
  iterators: the storage of the erased node is read as it was left, and the
  `push_back` that directly follows the `erase` obtains the node just
  released.  The appended node therefore has the identity of the erased one,
  and the index entry, which `emplace` leaves in place, designates the new
  tail.  An implementation that checks iterators stops at that read instead.
* In a state whose index has an entry that designates no node of the ledger
  the `erase` has no outcome and the result is `none`.  No sequence of calls
  on the empty cache leads to such a state (`wellFormed_run`).
-/

namespace LRUCache

/-! Data model -/

/-- Number of bytes of a chunk (`const int CHUNK_SIZE = 128`). -/
def CHUNK_SIZE : Nat := 128

/-- Default capacity (`const int CACHE_SIZE = 50000000`). -/
def CACHE_SIZE : Nat := 50000000

/-- The payload `std::array<char, CHUNK_SIZE>`: exactly `CHUNK_SIZE` chars. -/
structure Chunk where
  bytes : List Int
  size_eq : bytes.length = CHUNK_SIZE
deriving DecidableEq

/-- The chunk all of whose bytes are `c`. -/
def Chunk.fill (c : Int) : Chunk := ⟨List.replicate CHUNK_SIZE c, List.length_replicate _ _⟩

/-- The struct `Node` stored in `_cdata`. -/
structure Node where
  data : Chunk
  _csize : Nat
deriving DecidableEq

/-- The constructor `Node(d) : data(d), _csize(CHUNK_SIZE)`. -/
def Node.ofData (d : Chunk) : Node := ⟨d, CHUNK_SIZE⟩

/-- The struct `Item`: the time of access and the key. -/
structure Item where
  _laccess : Nat
  _k : Int
deriving DecidableEq

/-- A node of the `std::list<Item>` named `_times`: its identity and its `Item`. -/
structure Cell where
  addr : Nat
  item : Item
deriving DecidableEq

/-- The data members of `LRU` together with the clock and the node allocator. -/
structure LRU where
  _size : Nat
  _cdata : List (Int × Node)
  _times : List Cell
  _tindex : List (Int × Nat)
  clock : Nat
  fresh : Nat
deriving DecidableEq

/-! `std::unordered_map` -/

/-- The call `m.find(k)`: the value stored under `k`, if any. -/
def umFind {V : Type} : List (Int × V) → Int → Option V
  | [], _ => none
  | (k', v) :: m, k => if k' = k then some v else umFind m k

/-- The call `m.emplace(k, v)`: inserts only when `k` has no entry. -/
def umEmplace {V : Type} (m : List (Int × V)) (k : Int) (v : V) : List (Int × V) :=
  match umFind m k with
  | some _ => m
  | none => m ++ [(k, v)]

/-- The call `m.erase(k)`. -/
def umErase {V : Type} (m : List (Int × V)) (k : Int) : List (Int × V) :=
  m.filter (fun p => decide (p.1 ≠ k))

/-- The keys that have an entry in the map. -/
def umKeys {V : Type} (m : List (Int × V)) : List Int := m.map Prod.fst

/-! `std::list` -/

/-- The cell an iterator designates, when its node is in the list. -/
def cellAt : List Cell → Nat → Option Cell
  | [], _ => none
  | c :: l, a => if c.addr = a then some c else cellAt l a

/-- The call `l.erase(it)` for an iterator whose node is in the list. -/
def eraseAt (l : List Cell) (a : Nat) : List Cell :=
  l.filter (fun c => decide (c.addr ≠ a))

/-! The operations of `LRU` -/

/-- The member `key`: `d ^ d2`. -/
def key (d d2 : Int) : Int := Int.xor d d2

/-- A cache with no entries and capacity `_size = c`. -/
def empty (c : Nat) : LRU :=
  { _size := c, _cdata := [], _times := [], _tindex := [], clock := 0, fresh := 0 }

/-- The member `_lru_policy`. -/
def _lru_policy (s : LRU) : LRU :=
  match s._times with
  | [] => s
  | c :: rest =>
    { s with _times := rest
             _tindex := umErase s._tindex c.item._k
             _cdata := umErase s._cdata c.item._k }

/-- The member `_update_key_last_access`. -/
def _update_key_last_access (s : LRU) (k : Int) : Option LRU :=
  match umFind s._tindex k with
  | some it =>
    match cellAt s._times it with
    | some c =>
      some { s with _times := eraseAt s._times it ++ [⟨it, c.item⟩]
                    _tindex := umEmplace s._tindex k it }
    | none => none
  | none =>
    some { s with _times := s._times ++ [⟨s.fresh, ⟨s.clock, k⟩⟩]
                  _tindex := umEmplace s._tindex k s.fresh
                  clock := s.clock + 1
                  fresh := s.fresh + 1 }

/-- The member `get`: the chunk found, and the state after the call. -/
def get (s : LRU) (bb be : Int) : Option Chunk × LRU :=
  match umFind s._cdata (key bb be) with
  | some f => (some f.data, s)
  | none => (none, s)

/-- The member `put`. -/
def put (s : LRU) (bb be : Int) (data : Chunk) : Option LRU :=
  let k := key bb be
  let s1 := if s._cdata.length = s._size then _lru_policy s else s
  match _update_key_last_access s1 k with
  | some s2 => some { s2 with _cdata := umEmplace s2._cdata k (Node.ofData data) }
  | none => none

/-- A call of one of the two public operations. -/
inductive Call where
  | put (bb be : Int) (data : Chunk)
  | get (bb be : Int)

/-- The state after one call. -/
def step (s : LRU) : Call → Option LRU
  | Call.put bb be data => put s bb be data
  | Call.get bb be => some (get s bb be).2

/-- The state after a sequence of calls. -/
def run (s : LRU) : List Call → Option LRU
  | [] => some s
  | c :: cs => (step s c).bind (fun s' => run s' cs)

/-- The result of `get` on the state a sequence of calls leads to. -/
def getAfter (s : LRU) (cs : List Call) (bb be : Int) : Option (Option Chunk) :=
  (run s cs).map (fun s' => (get s' bb be).1)

/-- The range and chunk of a `put` call mapped to the key and chunk it stores. -/
def kv (p : Int × Int × Chunk) : Int × Chunk := (key p.1 p.2.1, p.2.2)

/-- The sequence of `put` calls for a list of ranges with their chunks. -/
def puts (ps : List (Int × Int × Chunk)) : List Call :=
  ps.map (fun p => Call.put p.1 p.2.1 p.2.2)

/-- Resident entries after one more insertion of a key that is not resident:
the oldest one leaves when their number equals the capacity. -/
def slide (c : Nat) (W : List (Int × Chunk)) (e : Int × Chunk) : List (Int × Chunk) :=
  (if W.length = c then W.tail else W) ++ [e]

/-- The three structures hold exactly the entries `W`, oldest first, no key twice. -/
def Tracks (s : LRU) (W : List (Int × Chunk)) : Prop :=
  s._cdata = W.map (fun e => (e.1, Node.ofData e.2)) ∧
  s._times.map (fun c => c.item._k) = W.map Prod.fst ∧
  umKeys s._tindex = W.map Prod.fst ∧
  (W.map Prod.fst).Nodup

/-- The keys of the `put` calls of a sequence of calls, in order. -/
def putKeys : List Call → List Int
  | [] => []
  | Call.put bb be _ :: cs => key bb be :: putKeys cs
  | Call.get _ _ :: cs => putKeys cs

/-- The ranges and chunks of the `put` calls of a sequence of calls, in order. -/
def putsOf : List Call → List (Int × Int × Chunk)
  | [] => []
  | Call.put bb be d :: cs => (bb, be, d) :: putsOf cs
  | Call.get _ _ :: cs => putsOf cs

/-- The results of `n` consecutive calls `get(bb, be)`, and the state after them. -/
def getN (s : LRU) (bb be : Int) : Nat → List (Option Chunk) × LRU
  | 0 => ([], s)
  | n + 1 => ((get s bb be).1 :: (getN (get s bb be).2 bb be n).1,
              (getN (get s bb be).2 bb be n).2)

/-- The chunk filled with the character `A`. -/
def chunkA : Chunk := Chunk.fill 65

/-- The chunk filled with the character `B`. -/
def chunkB : Chunk := Chunk.fill 66

/-- The chunk filled with the character `C`. -/
def chunkC : Chunk := Chunk.fill 67

/-- The calls `put(0,1,A); put(1,2,B); get(0,1); put(2,3,C)`. -/
def lruOrderScenario : List Call :=
  [Call.put 0 1 chunkA, Call.put 1 2 chunkB, Call.get 0 1, Call.put 2 3 chunkC]

/-- Every index entry designates a node of the ledger that carries its key, and
the nodes of the ledger have identities that were already handed out. -/
def IndexLive (s : LRU) : Prop :=
  (∀ k a, umFind s._tindex k = some a → ∃ c, cellAt s._times a = some c ∧ c.item._k = k) ∧
  (∀ c ∈ s._times, c.addr < s.fresh)

/-- The keys of the ledger entries, head first. -/
def ledgerKeys (s : LRU) : List Int := s._times.map (fun c => c.item._k)

/-- The ledger and the index are consistent: every index entry designates a
node of the ledger that carries its key, no two nodes of the ledger share an
identity or a key, and the index has an entry exactly for the keys of the
ledger. -/
def LedgerIndexed (s : LRU) : Prop :=
  IndexLive s ∧
  (s._times.map (fun c => c.addr)).Nodup ∧
  (ledgerKeys s).Nodup ∧
  (umKeys s._tindex).Nodup ∧
  (∀ x, x ∈ umKeys s._tindex ↔ x ∈ ledgerKeys s)

/-- The three structures are consistent: the ledger and the index are, and the
storage map has one entry exactly for each key of the ledger. -/
def WellFormed (s : LRU) : Prop :=
  LedgerIndexed s ∧
  (umKeys s._cdata).Nodup ∧
  (∀ x, x ∈ umKeys s._cdata ↔ x ∈ ledgerKeys s)

/-! Lemmas on the containers -/

theorem umFind_eq_none {V : Type} (m : List (Int × V)) (k : Int) :
    umFind m k = none ↔ k ∉ umKeys m := by
  induction m with
  | nil => simp [umFind, umKeys]
  | cons p m ih =>
    obtain ⟨k', v⟩ := p
    by_cases h : k' = k
    · simp [umFind, umKeys, h]
    · have h' : ¬ k = k' := fun e => h e.symm
      simp [umFind, h, h', umKeys] at ih ⊢
      exact ih

theorem umFind_of_mem {V : Type} (m : List (Int × V)) (k : Int) (v : V)
    (hnd : (umKeys m).Nodup) (hm : (k, v) ∈ m) : umFind m k = some v := by
  induction m with
  | nil => simp at hm
  | cons p m ih =>
    obtain ⟨k', v'⟩ := p
    simp only [umKeys, List.map_cons, List.nodup_cons] at hnd
    rcases List.mem_cons.mp hm with h | h
    · cases h
      simp [umFind]
    · have hk : k ∈ m.map Prod.fst := List.mem_map.mpr ⟨(k, v), h, rfl⟩
      have hne : ¬ k' = k := fun e => hnd.1 (e ▸ hk)
      simp only [umFind, hne, if_false]
      exact ih hnd.2 h

theorem umKeys_emplace_fresh {V : Type} (m : List (Int × V)) (k : Int) (v : V)
    (h : k ∉ umKeys m) : umEmplace m k v = m ++ [(k, v)] := by
  have := (umFind_eq_none m k).mpr h
  simp [umEmplace, this]

theorem umErase_head {V : Type} (m : List (Int × V)) (k : Int) (v : V)
    (h : k ∉ umKeys m) : umErase ((k, v) :: m) k = m := by
  simp only [umErase, List.filter_cons, ne_eq, not_true_eq_false, decide_False]
  simp only [Bool.false_eq_true, if_false]
  apply List.filter_eq_self.mpr
  intro p hp
  have : p.1 ≠ k := fun e => h (List.mem_map.mpr ⟨p, hp, e⟩)
  simp [this]


/-! Insertion of a key that is not resident -/

theorem tracks_lru_policy (s : LRU) (W : List (Int × Chunk)) (h : Tracks s W) :
    Tracks (_lru_policy s) W.tail ∧ (_lru_policy s)._size = s._size := by
  obtain ⟨hc, ht, hi, hnd⟩ := h
  cases W with
  | nil =>
    have : s._times = [] := by simpa using ht
    simp [_lru_policy, this, Tracks, hc, hi]
  | cons e W =>
    obtain ⟨k, d⟩ := e
    simp only [List.map_cons, List.nodup_cons] at hnd hc ht hi
    cases hts : s._times with
    | nil => rw [hts] at ht; simp at ht
    | cons c rest =>
      rw [hts] at ht
      simp only [List.map_cons, List.cons.injEq] at ht
      cases hti : s._tindex with
      | nil => rw [hti] at hi; simp [umKeys] at hi
      | cons p t =>
        rw [hti] at hi
        obtain ⟨pk, pa⟩ := p
        simp only [umKeys, List.map_cons, List.cons.injEq] at hi
        obtain ⟨hpk, hi⟩ := hi
        subst hpk
        have h1 : umErase s._cdata c.item._k = W.map (fun e => (e.1, Node.ofData e.2)) := by
          rw [hc, ht.1]
          apply umErase_head
          simpa [umKeys, Function.comp] using hnd.1
        have h2 : umErase ((pk, pa) :: t) c.item._k = t := by
          rw [ht.1]
          apply umErase_head
          rw [show umKeys t = W.map Prod.fst from hi]
          exact hnd.1
        refine ⟨⟨?_, ?_, ?_, ?_⟩, ?_⟩
        · simp [_lru_policy, hts, h1]
        · simp [_lru_policy, hts, ht.2]
        · simp [_lru_policy, hts, hti, h2]
          exact hi
        · simpa using hnd.2
        · simp [_lru_policy, hts]

theorem tracks_put_fresh (s : LRU) (W : List (Int × Chunk)) (bb be : Int) (d : Chunk)
    (h : Tracks s W) (hk : key bb be ∉ W.map Prod.fst) :
    ∃ s', put s bb be d = some s' ∧ Tracks s' (slide s._size W (key bb be, d)) ∧
      s'._size = s._size := by
  have hlen : s._cdata.length = W.length := by rw [h.1]; simp
  have key_step : ∀ (s1 : LRU) (W1 : List (Int × Chunk)), Tracks s1 W1 →
      key bb be ∉ W1.map Prod.fst →
      ∃ s', (match _update_key_last_access s1 (key bb be) with
              | some s2 => some { s2 with _cdata := umEmplace s2._cdata (key bb be) (Node.ofData d) }
              | none => none) = some s' ∧ Tracks s' (W1 ++ [(key bb be, d)]) ∧
            s'._size = s1._size := by
    intro s1 W1 h1 hk1
    obtain ⟨hc, ht, hi, hnd⟩ := h1
    have hf : umFind s1._tindex (key bb be) = none := by
      rw [umFind_eq_none, hi]; exact hk1
    have hf2 : key bb be ∉ umKeys s1._cdata := by
      rw [hc]; simpa [umKeys, Function.comp] using hk1
    have hu : _update_key_last_access s1 (key bb be) =
        some { s1 with _times := s1._times ++ [⟨s1.fresh, ⟨s1.clock, key bb be⟩⟩]
                       _tindex := umEmplace s1._tindex (key bb be) s1.fresh
                       clock := s1.clock + 1
                       fresh := s1.fresh + 1 } := by
      simp only [_update_key_last_access, hf]
    rw [hu]
    refine ⟨_, rfl, ⟨?_, ?_, ?_, ?_⟩, rfl⟩
    · simp only
      rw [umKeys_emplace_fresh _ _ _ hf2, hc]
      simp
    · simp [ht]
    · simp only
      rw [umKeys_emplace_fresh _ _ _ (by rw [hi]; exact hk1)]
      simp only [umKeys, List.map_append, List.map_cons, List.map_nil] at hi ⊢
      rw [hi]
    · rw [List.map_append, List.nodup_append]
      refine ⟨hnd, by simp, ?_⟩
      intro a ha hb
      simp at hb
      subst hb
      exact hk1 ha
  unfold put
  simp only [hlen, slide]
  by_cases hfull : W.length = s._size
  · simp only [hfull, if_true]
    obtain ⟨ht, hs⟩ := tracks_lru_policy s W h
    have hk1 : key bb be ∉ W.tail.map Prod.fst := by
      intro hm
      apply hk
      obtain ⟨p, hp, he⟩ := List.mem_map.mp hm
      exact List.mem_map.mpr ⟨p, List.mem_of_mem_tail hp, he⟩
    obtain ⟨s', h1, h2, h3⟩ := key_step _ _ ht hk1
    exact ⟨s', h1, h2, h3.trans hs⟩
  · simp only [hfull, if_false]
    exact key_step _ _ h hk


/-! Sequences of insertions of pairwise distinct keys -/

theorem tracks_empty (c : Nat) : Tracks (empty c) [] := by
  simp [Tracks, empty, umKeys]

theorem run_puts_tracks (c : Nat) (ps : List (Int × Int × Chunk)) :
    ∀ (s : LRU) (W : List (Int × Chunk)), Tracks s W → s._size = c →
      (W.map Prod.fst ++ ps.map (fun p => key p.1 p.2.1)).Nodup →
      ∃ s', run s (puts ps) = some s' ∧ Tracks s' ((ps.map kv).foldl (slide c) W) ∧
        s'._size = c := by
  induction ps with
  | nil =>
    intro s W h hs _
    exact ⟨s, rfl, h, hs⟩
  | cons p ps ih =>
    intro s W h hs hnd
    have hnd' := List.nodup_append.mp hnd
    have hp : key p.1 p.2.1 ∉ W.map Prod.fst := by
      intro hm
      exact hnd'.2.2 hm (List.mem_cons_self _ _)
    obtain ⟨s1, h1, ht1, hs1⟩ := tracks_put_fresh s W p.1 p.2.1 p.2.2 h hp
    have hnd1 : ((slide c W (kv p)).map Prod.fst ++
        ps.map (fun p => key p.1 p.2.1)).Nodup := by
      have hsub : ∀ x, x ∈ (slide c W (kv p)).map Prod.fst →
          x ∈ W.map Prod.fst ∨ x = key p.1 p.2.1 := by
        intro x hx
        simp only [slide, List.map_append, List.mem_append, List.map_cons, List.map_nil,
          List.mem_singleton] at hx
        rcases hx with hx | hx
        · left
          split at hx
          · obtain ⟨q, hq, he⟩ := List.mem_map.mp hx
            exact List.mem_map.mpr ⟨q, List.mem_of_mem_tail hq, he⟩
          · exact hx
        · right; exact hx
      have hps := List.nodup_cons.mp hnd'.2.1
      rw [List.nodup_append]
      refine ⟨?_, hps.2, ?_⟩
      · have := ht1.2.2.2
        rw [hs] at this
        exact this
      · intro x hx hy
        rcases hsub x hx with hw | he
        · exact hnd'.2.2 hw (List.mem_cons_of_mem _ hy)
        · subst he
          exact hps.1 hy
    rw [hs] at ht1
    obtain ⟨s2, h2, ht2, hs2⟩ := ih s1 (slide c W (kv p)) ht1 (hs1.trans hs) hnd1
    refine ⟨s2, ?_, ht2, hs2⟩
    simp only [puts, List.map_cons, run, step, h1, Option.bind] at h2 ⊢
    exact h2

theorem slide_window (c : Nat) (hc : 1 ≤ c) (es : List (Int × Chunk)) :
    ∀ W : List (Int × Chunk), W.length ≤ c →
      es.foldl (slide c) W = (W ++ es).drop ((W ++ es).length - c) := by
  induction es with
  | nil =>
    intro W hW
    simp [Nat.sub_eq_zero_of_le hW]
  | cons e es ih =>
    intro W hW
    rw [List.foldl_cons]
    by_cases hfull : W.length = c
    · cases W with
      | nil => simp at hfull; omega
      | cons w W =>
        have hl : (W ++ [e]).length ≤ c := by simp at hfull ⊢; omega
        simp only [slide, hfull, if_true, List.tail_cons]
        rw [ih _ hl]
        simp only [List.length_append, List.length_cons, List.length_nil, List.append_assoc,
          List.singleton_append, List.cons_append] at hfull ⊢
        have e1 : W.length + (0 + es.length + 1) - c = es.length := by omega
        have e2 : W.length + (es.length + 1) + 1 - c = es.length + 1 := by omega
        rw [e1, e2, List.drop_succ_cons, List.nil_append]
    · have hl : (W ++ [e]).length ≤ c := by simp; omega
      simp only [slide, hfull, if_false]
      rw [ih _ hl]
      simp

theorem run_puts_window (c : Nat) (hc : 1 ≤ c) (ps : List (Int × Int × Chunk))
    (hnd : (ps.map (fun p => key p.1 p.2.1)).Nodup) :
    ∃ s, run (empty c) (puts ps) = some s ∧
      Tracks s ((ps.drop (ps.length - c)).map kv) := by
  obtain ⟨s, h1, h2, _⟩ := run_puts_tracks c ps (empty c) [] (tracks_empty c) rfl
    (by simpa using hnd)
  refine ⟨s, h1, ?_⟩
  rw [slide_window c hc _ [] (by simp)] at h2
  simpa [List.map_drop] using h2


theorem mem_umKeys_emplace {V : Type} (m : List (Int × V)) (k : Int) (v : V) (x : Int) :
    x ∈ umKeys (umEmplace m k v) ↔ x ∈ umKeys m ∨ x = k := by
  unfold umEmplace
  cases h : umFind m k with
  | none => simp [umKeys]
  | some w =>
    simp only
    constructor
    · intro hx; exact Or.inl hx
    · rintro (hx | hx)
      · exact hx
      · subst hx
        by_contra hc
        rw [(umFind_eq_none m x).mpr hc] at h
        cases h

theorem update_cdata (s s2 : LRU) (k : Int) (h : _update_key_last_access s k = some s2) :
    s2._cdata = s._cdata ∧ s2._size = s._size := by
  unfold _update_key_last_access at h
  split at h
  · split at h
    · cases h; exact ⟨rfl, rfl⟩
    · cases h
  · cases h; exact ⟨rfl, rfl⟩

theorem put_cdata (s s' : LRU) (bb be : Int) (d : Chunk) (h : put s bb be d = some s') :
    s'._cdata = umEmplace (if s._cdata.length = s._size then _lru_policy s else s)._cdata
      (key bb be) (Node.ofData d) ∧ s'._size = s._size := by
  unfold put at h
  simp only at h
  split at h
  · rename_i s2 hu
    cases h
    obtain ⟨h1, h2⟩ := update_cdata _ _ _ hu
    refine ⟨by simp only [h1], ?_⟩
    simp only [h2]
    split
    · unfold _lru_policy; split <;> rfl
    · rfl
  · cases h

theorem put_cdata_zero (s s' : LRU) (bb be : Int) (d : Chunk) (hs : s._size = 0)
    (h : put s bb be d = some s') :
    s'._cdata = umEmplace s._cdata (key bb be) (Node.ofData d) ∧ s'._size = 0 := by
  obtain ⟨h1, h2⟩ := put_cdata s s' bb be d h
  refine ⟨?_, h2.trans hs⟩
  rw [h1, hs]
  by_cases he : s._cdata.length = 0
  · have hnil : s._cdata = [] := List.length_eq_zero.mp he
    simp only [he, if_true]
    unfold _lru_policy
    split
    · rfl
    · simp [hnil, umErase]
  · simp only [he, if_false]

theorem run_zero_keys (cs : List Call) :
    ∀ s s' : LRU, s._size = 0 → run s cs = some s' →
      ∀ x, x ∈ umKeys s'._cdata ↔ x ∈ umKeys s._cdata ∨ x ∈ putKeys cs := by
  induction cs with
  | nil =>
    intro s s' _ h x
    cases h
    simp [putKeys]
  | cons c cs ih =>
    intro s s' hs h x
    cases c with
    | put bb be d =>
      simp only [run, step] at h
      cases hp : put s bb be d with
      | none => rw [hp] at h; cases h
      | some s1 =>
        rw [hp] at h
        obtain ⟨h1, h2⟩ := put_cdata_zero s s1 bb be d hs hp
        rw [ih s1 s' h2 h x, h1, mem_umKeys_emplace]
        simp only [putKeys, List.mem_cons]
        tauto
    | get bb be =>
      simp only [run, step, Option.bind] at h
      have hg : (get s bb be).2 = s := by unfold get; split <;> rfl
      rw [hg] at h
      rw [ih s s' hs h x]
      simp [putKeys]

theorem get_fst_eq_none (s : LRU) (bb be : Int) :
    (get s bb be).1 = none ↔ key bb be ∉ umKeys s._cdata := by
  rw [← umFind_eq_none]
  unfold get
  split <;> simp_all

theorem get_snd (s : LRU) (bb be : Int) : (get s bb be).2 = s := by
  unfold get
  split <;> rfl

theorem run_eq_run_puts (cs : List Call) :
    ∀ s : LRU, run s cs = run s (puts (putsOf cs)) := by
  induction cs with
  | nil => intro s; rfl
  | cons c cs ih =>
    intro s
    cases c with
    | put bb be d =>
      simp only [run, step, putsOf, puts, List.map_cons]
      cases put s bb be d with
      | none => rfl
      | some s1 => exact ih s1
    | get bb be =>
      simp only [run, step, putsOf, Option.bind, get_snd]
      exact ih s

theorem putKeys_eq (cs : List Call) :
    putKeys cs = (putsOf cs).map (fun p => key p.1 p.2.1) := by
  induction cs with
  | nil => rfl
  | cons c cs ih =>
    cases c with
    | put bb be d => simp [putKeys, putsOf, ih]
    | get bb be => simp [putKeys, putsOf, ih]

theorem int_xor_comm (a b : Int) : Int.xor a b = Int.xor b a := by
  cases a <;> cases b <;> simp [Int.xor, Nat.xor_comm]

theorem nat_even_xor_succ (m : Nat) : (2 * m) ^^^ (2 * m + 1) = 1 := by
  have h := Nat.xor_bit false m true m
  simpa [Nat.bit] using h

theorem nat_double_xor (x y : Nat) : (2 * x) ^^^ (2 * y) = 2 * (x ^^^ y) := by
  have h := Nat.xor_bit false x false y
  simpa [Nat.bit] using h

theorem nat_chunk_xor (m : Nat) : (128 * (2 * m)) ^^^ (128 * (2 * m + 1)) = 128 := by
  have e1 : 128 * (2 * m) = 2 * (2 * (2 * (2 * (2 * (2 * (2 * (2 * m))))))) := by omega
  have e2 : 128 * (2 * m + 1) = 2 * (2 * (2 * (2 * (2 * (2 * (2 * (2 * m + 1))))))) := by omega
  rw [e1, e2]
  simp only [nat_double_xor, nat_even_xor_succ]

theorem int_even_nonneg (n : Int) (h0 : 0 ≤ n) (he : Even n) :
    ∃ m : Nat, n = ((2 * m : Nat) : Int) := by
  obtain ⟨r, hr⟩ := he
  have hr0 : 0 ≤ r := by omega
  obtain ⟨m, hm⟩ := Int.eq_ofNat_of_zero_le hr0
  exact ⟨m, by subst hm; rw [hr]; push_cast; ring⟩

theorem slide_zero (es : List (Int × Chunk)) :
    ∀ W : List (Int × Chunk), es.foldl (slide 0) W = W ++ es := by
  induction es with
  | nil => intro W; simp
  | cons e es ih =>
    intro W
    rw [List.foldl_cons, ih]
    cases W with
    | nil => simp [slide]
    | cons w W => simp [slide]

theorem umFind_umErase_self {V : Type} (m : List (Int × V)) (k : Int) :
    umFind (umErase m k) k = none := by
  rw [umFind_eq_none]
  simp [umKeys, umErase]

theorem umFind_umErase_ne {V : Type} (m : List (Int × V)) (k x : Int) (h : x ≠ k) :
    umFind (umErase m k) x = umFind m x := by
  induction m with
  | nil => rfl
  | cons p m ih =>
    obtain ⟨k', v⟩ := p
    by_cases hk : k' = k
    · subst hk
      have hx : ¬ k' = x := fun e => h e.symm
      simp only [umErase, List.filter_cons, ne_eq, not_true_eq_false, decide_False,
        Bool.false_eq_true, if_false, umFind, hx]
      exact ih
    · simp only [umErase, List.filter_cons, ne_eq, hk, not_false_eq_true, decide_True,
        if_true, umFind]
      by_cases hx : k' = x
      · simp [hx]
      · simp only [hx, if_false]
        exact ih

theorem length_umErase {V : Type} (m : List (Int × V)) (k : Int)
    (hnd : (umKeys m).Nodup) (hk : k ∈ umKeys m) :
    (umErase m k).length + 1 = m.length := by
  induction m with
  | nil => simp [umKeys] at hk
  | cons p m ih =>
    obtain ⟨k', v⟩ := p
    simp only [umKeys, List.map_cons, List.nodup_cons] at hnd
    by_cases hkk : k' = k
    · subst hkk
      rw [umErase_head m k' v hnd.1]
      rfl
    · have hk' : k ∈ umKeys m := by
        simp only [umKeys, List.map_cons, List.mem_cons] at hk
        rcases hk with h | h
        · exact absurd h.symm hkk
        · exact h
      simp only [umErase, List.filter_cons, ne_eq, hkk, not_false_eq_true, decide_True,
        if_true, List.length_cons]
      have := ih hnd.2 hk'
      simp only [umErase, ne_eq] at this
      omega

theorem mem_umKeys_umErase {V : Type} (m : List (Int × V)) (k x : Int) :
    x ∈ umKeys (umErase m k) ↔ x ∈ umKeys m ∧ x ≠ k := by
  simp only [umKeys, umErase, List.mem_map, List.mem_filter, ne_eq, decide_eq_true_eq]
  constructor
  · rintro ⟨p, ⟨hp, hne⟩, rfl⟩
    exact ⟨⟨p, hp, rfl⟩, hne⟩
  · rintro ⟨⟨p, hp, rfl⟩, hne⟩
    exact ⟨p, ⟨hp, hne⟩, rfl⟩

theorem umFind_append_ne {V : Type} (m : List (Int × V)) (k x : Int) (v : V) (h : x ≠ k) :
    umFind (m ++ [(k, v)]) x = umFind m x := by
  induction m with
  | nil =>
    have : ¬ k = x := fun e => h e.symm
    simp [umFind, this]
  | cons p m ih =>
    obtain ⟨k', w⟩ := p
    show (if k' = x then some w else umFind (m ++ [(k, v)]) x) =
      (if k' = x then some w else umFind m x)
    rw [ih]

theorem umFind_append_self {V : Type} (m : List (Int × V)) (k : Int) (v : V)
    (h : umFind m k = none) : umFind (m ++ [(k, v)]) k = some v := by
  induction m with
  | nil => simp [umFind]
  | cons p m ih =>
    obtain ⟨k', w⟩ := p
    simp only [umFind] at h
    show (if k' = k then some w else umFind (m ++ [(k, v)]) k) = some v
    split at h
    · cases h
    · rename_i hne
      simp only [hne, if_false]
      exact ih h

theorem cellAt_append (l l' : List Cell) (a : Nat) (c : Cell) (h : cellAt l a = some c) :
    cellAt (l ++ l') a = some c := by
  induction l with
  | nil => simp [cellAt] at h
  | cons x l ih =>
    simp only [cellAt] at h
    show (if x.addr = a then some x else cellAt (l ++ l') a) = some c
    split at h
    · rename_i hx
      simp only [hx, if_true]
      exact h
    · rename_i hx
      simp only [hx, if_false]
      exact ih h

theorem cellAt_append_new (l : List Cell) (a : Nat) (it : Item)
    (h : ∀ c ∈ l, c.addr < a) : cellAt (l ++ [⟨a, it⟩]) a = some ⟨a, it⟩ := by
  induction l with
  | nil => simp [cellAt]
  | cons x l ih =>
    have hx : ¬ x.addr = a := by
      have := h x (List.mem_cons_self _ _)
      omega
    show (if x.addr = a then some x else cellAt (l ++ [⟨a, it⟩]) a) = some ⟨a, it⟩
    simp only [hx, if_false]
    exact ih (fun c hc => h c (List.mem_cons_of_mem _ hc))

theorem indexLive_empty (c : Nat) : IndexLive (empty c) := by
  constructor
  · intro k a h
    simp [empty, umFind] at h
  · intro x hx
    simp [empty] at hx

theorem indexLive_lru_policy (s : LRU) (h : IndexLive s) : IndexLive (_lru_policy s) := by
  unfold _lru_policy
  split
  · exact h
  · rename_i c rest hts
    obtain ⟨h1, h2⟩ := h
    constructor
    · intro k a hk
      simp only at hk
      by_cases hkc : k = c.item._k
      · subst hkc
        rw [umFind_umErase_self] at hk
        cases hk
      · rw [umFind_umErase_ne _ _ _ hkc] at hk
        obtain ⟨x, hx, hxk⟩ := h1 k a hk
        rw [hts] at hx
        simp only [cellAt] at hx
        split at hx
        · cases hx
          exact absurd hxk.symm hkc
        · exact ⟨x, hx, hxk⟩
    · intro x hx
      simp only at hx ⊢
      exact h2 x (by rw [hts]; exact List.mem_cons_of_mem _ hx)

theorem indexLive_update_absent (s : LRU) (k : Int) (h : IndexLive s)
    (hk : umFind s._tindex k = none) :
    ∃ s2, _update_key_last_access s k = some s2 ∧ IndexLive s2 := by
  obtain ⟨h1, h2⟩ := h
  have hu : _update_key_last_access s k =
      some { s with _times := s._times ++ [⟨s.fresh, ⟨s.clock, k⟩⟩]
                    _tindex := umEmplace s._tindex k s.fresh
                    clock := s.clock + 1
                    fresh := s.fresh + 1 } := by
    simp only [_update_key_last_access, hk]
  refine ⟨_, hu, ?_, ?_⟩
  · intro x a hx
    simp only [umEmplace, hk] at hx
    simp only
    by_cases hxk : x = k
    · subst hxk
      rw [umFind_append_self _ _ _ hk] at hx
      cases hx
      exact ⟨_, cellAt_append_new _ _ _ h2, rfl⟩
    · rw [umFind_append_ne _ _ _ _ hxk] at hx
      obtain ⟨c, hc, hck⟩ := h1 x a hx
      exact ⟨c, cellAt_append _ _ _ _ hc, hck⟩
  · intro c hc
    simp only [List.mem_append, List.mem_singleton] at hc
    simp only
    rcases hc with hc | hc
    · have := h2 c hc
      omega
    · subst hc
      simp

theorem cellAt_mem (l : List Cell) (a : Nat) (c : Cell) (h : cellAt l a = some c) :
    c ∈ l ∧ c.addr = a := by
  induction l with
  | nil => simp [cellAt] at h
  | cons x l ih =>
    simp only [cellAt] at h
    split at h
    · rename_i hx
      cases h
      exact ⟨List.mem_cons_self _ _, hx⟩
    · exact ⟨List.mem_cons_of_mem _ (ih h).1, (ih h).2⟩

theorem cellAt_eraseAt_ne (l : List Cell) (a b : Nat) (h : b ≠ a) :
    cellAt (eraseAt l a) b = cellAt l b := by
  induction l with
  | nil => rfl
  | cons x l ih =>
    by_cases hx : x.addr = a
    · have hb : ¬ x.addr = b := fun e => h (e.symm.trans hx)
      have he : eraseAt (x :: l) a = eraseAt l a := by
        simp [eraseAt, List.filter_cons, hx]
      rw [he, ih]
      simp only [cellAt, hb, if_false]
    · have he : eraseAt (x :: l) a = x :: eraseAt l a := by
        simp [eraseAt, List.filter_cons, hx]
      rw [he]
      by_cases hb : x.addr = b
      · simp [cellAt, hb]
      · simp only [cellAt, hb, if_false]
        exact ih

theorem cellAt_eraseAt_self (l : List Cell) (a : Nat) : cellAt (eraseAt l a) a = none := by
  induction l with
  | nil => rfl
  | cons x l ih =>
    by_cases hx : x.addr = a
    · have he : eraseAt (x :: l) a = eraseAt l a := by
        simp [eraseAt, List.filter_cons, hx]
      rw [he, ih]
    · have he : eraseAt (x :: l) a = x :: eraseAt l a := by
        simp [eraseAt, List.filter_cons, hx]
      rw [he]
      simp only [cellAt, hx, if_false]
      exact ih

theorem cellAt_append_none (l : List Cell) (a : Nat) (it : Item) (h : cellAt l a = none) :
    cellAt (l ++ [⟨a, it⟩]) a = some ⟨a, it⟩ := by
  induction l with
  | nil => simp [cellAt]
  | cons x l ih =>
    simp only [cellAt] at h
    show (if x.addr = a then some x else cellAt (l ++ [⟨a, it⟩]) a) = some ⟨a, it⟩
    split at h
    · cases h
    · rename_i hx
      simp only [hx, if_false]
      exact ih h

theorem mem_eraseAt (l : List Cell) (a : Nat) (c : Cell) :
    c ∈ eraseAt l a ↔ c ∈ l ∧ c.addr ≠ a := by
  simp [eraseAt]

theorem nodup_umKeys_umErase {V : Type} (m : List (Int × V)) (k : Int)
    (h : (umKeys m).Nodup) : (umKeys (umErase m k)).Nodup :=
  List.Nodup.sublist (List.Sublist.map _ (List.filter_sublist _)) h

theorem nodup_umKeys_umEmplace {V : Type} (m : List (Int × V)) (k : Int) (v : V)
    (h : (umKeys m).Nodup) : (umKeys (umEmplace m k v)).Nodup := by
  unfold umEmplace
  cases hf : umFind m k with
  | some w => exact h
  | none =>
    have hk := (umFind_eq_none m k).mp hf
    simp only [umKeys, List.map_append, List.map_cons, List.map_nil] at hk ⊢
    rw [List.nodup_append]
    refine ⟨h, by simp, ?_⟩
    intro a ha hb
    simp at hb
    subst hb
    exact hk ha

theorem ledgerIndexed_lru_policy (s : LRU) (h : LedgerIndexed s) :
    LedgerIndexed (_lru_policy s) ∧
    (∀ x, x ∈ ledgerKeys (_lru_policy s) ↔
      x ∈ ledgerKeys s ∧ some x ≠ (s._times.head?).map (fun c => c.item._k)) ∧
    (_lru_policy s)._cdata =
      (match s._times.head? with
       | none => s._cdata
       | some c => umErase s._cdata c.item._k) := by
  obtain ⟨hl, ha, hk, hi, hik⟩ := h
  cases hts : s._times with
  | nil =>
    have hp : _lru_policy s = s := by simp [_lru_policy, hts]
    rw [hp]
    refine ⟨⟨hl, ha, hk, hi, hik⟩, ?_, ?_⟩
    · intro x
      simp [hts]
    · simp [hts]
  | cons c rest =>
    have hp : _lru_policy s =
        { s with _times := rest
                 _tindex := umErase s._tindex c.item._k
                 _cdata := umErase s._cdata c.item._k } := by
      simp [_lru_policy, hts]
    have hl' := indexLive_lru_policy s hl
    have hk' : c.item._k ∉ rest.map (fun c => c.item._k) ∧
        (rest.map (fun c => c.item._k)).Nodup := by
      simpa [ledgerKeys, hts] using hk
    have hrest : ∀ x, x ∈ rest.map (fun c => c.item._k) ↔
        x ∈ ledgerKeys s ∧ x ≠ c.item._k := by
      intro x
      simp only [ledgerKeys, hts, List.map_cons, List.mem_cons]
      constructor
      · intro hx
        exact ⟨Or.inr hx, fun e => hk'.1 (e ▸ hx)⟩
      · rintro ⟨hx | hx, hne⟩
        · exact absurd hx hne
        · exact hx
    rw [hp] at hl' ⊢
    refine ⟨⟨hl', ?_, hk'.2, nodup_umKeys_umErase _ _ hi, ?_⟩, ?_, ?_⟩
    · rw [hts] at ha
      exact (List.nodup_cons.mp ha).2
    · intro x
      show x ∈ umKeys (umErase s._tindex c.item._k) ↔ x ∈ rest.map (fun c => c.item._k)
      rw [mem_umKeys_umErase, hrest, hik]
    · intro x
      show x ∈ rest.map (fun c => c.item._k) ↔ _
      rw [hrest]
      simp only [List.head?_cons, Option.map_some', ne_eq, Option.some.injEq]
    · simp

theorem wellFormed_lru_policy (s : LRU) (h : WellFormed s) : WellFormed (_lru_policy s) := by
  obtain ⟨hli, hc, hck⟩ := h
  obtain ⟨h1, h2, h3⟩ := ledgerIndexed_lru_policy s hli
  refine ⟨h1, ?_, ?_⟩
  · rw [h3]
    split
    · exact hc
    · exact nodup_umKeys_umErase _ _ hc
  · intro x
    rw [h2, h3]
    cases hts : s._times.head? with
    | none => simp [hck]
    | some c =>
      simp only [Option.map_some', ne_eq, Option.some.injEq]
      rw [mem_umKeys_umErase, hck]

theorem update_absent_spec (s : LRU) (k : Int) (h : LedgerIndexed s)
    (hf : umFind s._tindex k = none) :
    ∃ s2 c, _update_key_last_access s k = some s2 ∧ LedgerIndexed s2 ∧
      (∀ x, x ∈ ledgerKeys s2 ↔ x ∈ ledgerKeys s ∨ x = k) ∧
      s2._times.getLast? = some c ∧ c.item._k = k ∧ umFind s2._tindex k = some c.addr ∧
      s2._cdata = s._cdata ∧ s2._size = s._size := by
  obtain ⟨hl, ha, hk, hi, hik⟩ := h
  have hu : _update_key_last_access s k =
      some { s with _times := s._times ++ [⟨s.fresh, ⟨s.clock, k⟩⟩]
                    _tindex := umEmplace s._tindex k s.fresh
                    clock := s.clock + 1
                    fresh := s.fresh + 1 } := by
    simp only [_update_key_last_access, hf]
  obtain ⟨s2, hu2, hl2⟩ := indexLive_update_absent s k hl hf
  rw [hu] at hu2
  have hs2 := (Option.some.inj hu2).symm
  have hki : k ∉ umKeys s._tindex := (umFind_eq_none _ _).mp hf
  have hkl : k ∉ ledgerKeys s := fun hm => hki ((hik k).mpr hm)
  have hem : umEmplace s._tindex k s.fresh = s._tindex ++ [(k, s.fresh)] :=
    umKeys_emplace_fresh _ _ _ hki
  refine ⟨s2, ⟨s.fresh, ⟨s.clock, k⟩⟩, by rw [hu, hs2], ⟨hl2, ?_, ?_, ?_, ?_⟩,
    ?_, ?_, rfl, ?_, ?_, ?_⟩
  · rw [hs2]
    simp only [List.map_append, List.map_cons, List.map_nil]
    rw [List.nodup_append]
    refine ⟨ha, by simp, ?_⟩
    intro a hm hb
    simp at hb
    subst hb
    obtain ⟨c, hc, hca⟩ := List.mem_map.mp hm
    have := hl.2 c hc
    omega
  · rw [hs2]
    simp only [ledgerKeys, List.map_append, List.map_cons, List.map_nil]
    rw [List.nodup_append]
    refine ⟨hk, by simp, ?_⟩
    intro a hm hb
    simp at hb
    subst hb
    exact hkl hm
  · rw [hs2]
    simp only [hem, umKeys, List.map_append, List.map_cons, List.map_nil]
    rw [List.nodup_append]
    refine ⟨hi, by simp, ?_⟩
    intro a hm hb
    simp at hb
    subst hb
    exact hki hm
  · intro x
    rw [hs2]
    simp only [hem, umKeys, ledgerKeys, List.map_append, List.map_cons, List.map_nil,
      List.mem_append, List.mem_singleton]
    have := hik x
    simp only [umKeys, ledgerKeys] at this
    rw [this]
  · intro x
    rw [hs2]
    simp [ledgerKeys]
  · rw [hs2]
    simp
  · rw [hs2]
    simp only [hem]
    exact umFind_append_self _ _ _ hf
  · rw [hs2]
  · rw [hs2]

theorem update_present_spec (s : LRU) (k : Int) (it : Nat) (h : LedgerIndexed s)
    (hf : umFind s._tindex k = some it) :
    ∃ s2 c, _update_key_last_access s k = some s2 ∧ LedgerIndexed s2 ∧
      (∀ x, x ∈ ledgerKeys s2 ↔ x ∈ ledgerKeys s ∨ x = k) ∧
      s2._times.getLast? = some c ∧ c.item._k = k ∧ umFind s2._tindex k = some c.addr ∧
      s2._cdata = s._cdata ∧ s2._size = s._size := by
  obtain ⟨hl, ha, hk, hi, hik⟩ := h
  obtain ⟨c, hc, hck⟩ := hl.1 k it hf
  obtain ⟨hcm, hca⟩ := cellAt_mem _ _ _ hc
  have hem : umEmplace s._tindex k it = s._tindex := by simp [umEmplace, hf]
  have hu : _update_key_last_access s k =
      some { s with _times := eraseAt s._times it ++ [⟨it, c.item⟩]
                    _tindex := s._tindex } := by
    simp only [_update_key_last_access, hf, hc, hem]
  have huniq : ∀ x ∈ s._times, x.item._k = k → x = c := by
    intro x hx hxk
    exact List.inj_on_of_nodup_map hk hx hcm (hxk.trans hck.symm)
  have hkeys : ∀ x, x ∈ (eraseAt s._times it ++ [(⟨it, c.item⟩ : Cell)]).map
      (fun c => c.item._k) ↔ x ∈ ledgerKeys s := by
    intro x
    simp only [List.map_append, List.map_cons, List.map_nil, List.mem_append,
      List.mem_singleton, List.mem_map, ledgerKeys]
    constructor
    · rintro (⟨y, hy, rfl⟩ | hx)
      · exact ⟨y, ((mem_eraseAt _ _ _).mp hy).1, rfl⟩
      · exact ⟨c, hcm, hx.symm⟩
    · rintro ⟨y, hy, rfl⟩
      by_cases hya : y.addr = it
      · right
        have : y = c := List.inj_on_of_nodup_map ha hy hcm (hya.trans hca.symm)
        rw [this]
      · left
        exact ⟨y, (mem_eraseAt _ _ _).mpr ⟨hy, hya⟩, rfl⟩
  refine ⟨_, ⟨it, c.item⟩, hu, ⟨⟨?_, ?_⟩, ?_, ?_, hi, ?_⟩, ?_, ?_, hck, hf, rfl, rfl⟩
  · intro k' a' hk'
    obtain ⟨c', hc', hck'⟩ := hl.1 k' a' hk'
    by_cases ha' : a' = it
    · subst ha'
      rw [hc] at hc'
      cases hc'
      exact ⟨⟨a', c.item⟩, cellAt_append_none _ _ _ (cellAt_eraseAt_self _ _), hck'⟩
    · refine ⟨c', cellAt_append _ _ _ _ ?_, hck'⟩
      rw [cellAt_eraseAt_ne _ _ _ ha']
      exact hc'
  · intro x hx
    simp only [List.mem_append, List.mem_singleton] at hx
    rcases hx with hx | hx
    · exact hl.2 x ((mem_eraseAt _ _ _).mp hx).1
    · subst hx
      have := hl.2 c hcm
      simp only
      omega
  · simp only [List.map_append, List.map_cons, List.map_nil]
    rw [List.nodup_append]
    refine ⟨List.Nodup.sublist (List.Sublist.map _ (List.filter_sublist _)) ha, by simp, ?_⟩
    intro a hm hb
    simp at hb
    subst hb
    obtain ⟨y, hy, hya⟩ := List.mem_map.mp hm
    exact ((mem_eraseAt _ _ _).mp hy).2 hya
  · simp only [ledgerKeys, List.map_append, List.map_cons, List.map_nil]
    rw [List.nodup_append]
    refine ⟨List.Nodup.sublist (List.Sublist.map _ (List.filter_sublist _)) hk, by simp, ?_⟩
    intro x hm hb
    simp at hb
    obtain ⟨y, hy, hyk⟩ := List.mem_map.mp hm
    have hy' := (mem_eraseAt _ _ _).mp hy
    have : y = c := huniq y hy'.1 (by rw [hyk, hb, hck])
    exact hy'.2 (by rw [this, hca])
  · intro x
    show x ∈ umKeys s._tindex ↔ x ∈ (eraseAt s._times it ++ [(⟨it, c.item⟩ : Cell)]).map
      (fun c => c.item._k)
    rw [hkeys, hik]
  · intro x
    show x ∈ (eraseAt s._times it ++ [(⟨it, c.item⟩ : Cell)]).map (fun c => c.item._k) ↔ _
    rw [hkeys]
    constructor
    · exact Or.inl
    · rintro (hx | hx)
      · exact hx
      · subst hx
        exact List.mem_map.mpr ⟨c, hcm, hck⟩
  · simp

theorem update_spec (s : LRU) (k : Int) (h : LedgerIndexed s) :
    ∃ s2 c, _update_key_last_access s k = some s2 ∧ LedgerIndexed s2 ∧
      (∀ x, x ∈ ledgerKeys s2 ↔ x ∈ ledgerKeys s ∨ x = k) ∧
      s2._times.getLast? = some c ∧ c.item._k = k ∧ umFind s2._tindex k = some c.addr ∧
      s2._cdata = s._cdata ∧ s2._size = s._size := by
  cases hf : umFind s._tindex k with
  | none => exact update_absent_spec s k h hf
  | some it => exact update_present_spec s k it h hf

theorem wellFormed_put (s : LRU) (bb be : Int) (d : Chunk) (h : WellFormed s) :
    ∃ s', put s bb be d = some s' ∧ WellFormed s' ∧ s'._size = s._size := by
  have h1 : WellFormed (if s._cdata.length = s._size then _lru_policy s else s) := by
    split
    · exact wellFormed_lru_policy s h
    · exact h
  have hsz : (if s._cdata.length = s._size then _lru_policy s else s)._size = s._size := by
    split
    · unfold _lru_policy; split <;> rfl
    · rfl
  unfold put
  simp only
  generalize (if s._cdata.length = s._size then _lru_policy s else s) = s1 at h1 hsz
  obtain ⟨hli, hc, hck⟩ := h1
  obtain ⟨s2, c, hu, hli2, hkeys, _, _, _, hcd, hs2⟩ := update_spec s1 (key bb be) hli
  rw [hu]
  refine ⟨_, rfl, ⟨hli2, ?_, ?_⟩, hs2.trans hsz⟩
  · simp only
    rw [hcd]
    exact nodup_umKeys_umEmplace _ _ _ hc
  · intro x
    show x ∈ umKeys (umEmplace s2._cdata (key bb be) (Node.ofData d)) ↔ x ∈ ledgerKeys s2
    rw [mem_umKeys_emplace, hcd, hck, hkeys]

theorem wellFormed_empty (c : Nat) : WellFormed (empty c) := by
  refine ⟨⟨indexLive_empty c, ?_, ?_, ?_, ?_⟩, ?_, ?_⟩ <;> simp [empty, ledgerKeys, umKeys]

theorem wellFormed_run (cs : List Call) :
    ∀ s : LRU, WellFormed s → ∃ s', run s cs = some s' ∧ WellFormed s' ∧ s'._size = s._size := by
  induction cs with
  | nil =>
    intro s h
    exact ⟨s, rfl, h, rfl⟩
  | cons c cs ih =>
    intro s h
    cases c with
    | put bb be d =>
      obtain ⟨s1, hp, h1, hs1⟩ := wellFormed_put s bb be d h
      obtain ⟨s2, hr, h2, hs2⟩ := ih s1 h1
      refine ⟨s2, ?_, h2, hs2.trans hs1⟩
      simp only [run, step, hp, Option.bind]
      exact hr
    | get bb be =>
      obtain ⟨s2, hr, h2, hs2⟩ := ih s h
      refine ⟨s2, ?_, h2, hs2⟩
      simp only [run, step, Option.bind, get_snd]
      exact hr

/-- With capacity 0 every sequence of calls on the empty cache runs to a state
whose storage map has an entry exactly for the keys that were put. -/
theorem zero_capacity_keeps_every_key (cs : List Call) :
    ∃ s, run (empty 0) cs = some s ∧
      (s._cdata = [] ↔ putKeys cs = []) ∧
      (∀ bb be, (get s bb be).1 = none ↔ key bb be ∉ putKeys cs) := by
  obtain ⟨s, h, _⟩ := wellFormed_run cs (empty 0) (wellFormed_empty 0)
  refine ⟨s, h, ?_⟩
  have hk := run_zero_keys cs (empty 0) s rfl h
  have hk' : ∀ x, x ∈ umKeys s._cdata ↔ x ∈ putKeys cs := by
    intro x
    rw [hk x]
    simp [empty, umKeys]
  constructor
  · constructor
    · intro he
      apply List.eq_nil_iff_forall_not_mem.mpr
      intro x hx
      have := (hk' x).mpr hx
      rw [he] at this
      simp [umKeys] at this
    · intro he
      have : umKeys s._cdata = [] := by
        apply List.eq_nil_iff_forall_not_mem.mpr
        intro x hx
        have := (hk' x).mp hx
        rw [he] at this
        cases this
      simpa [umKeys] using this
  · intro bb be
    rw [get_fst_eq_none, hk']

/-! The properties of the specification -/

/-- C1 (round trip), evaluated where it fails: with capacity 2, after
`put(0,1,A); put(0,1,B)` the call `get(0,1)` returns `A`, the chunk of the
first `put`, although `A` and `B` differ: `emplace` does not replace the
chunk of a key that is resident. -/
theorem put_resident_then_get_returns_old_chunk :
    chunkA ≠ chunkB ∧
    getAfter (empty 2) [Call.put 0 1 chunkA, Call.put 0 1 chunkB] 0 1 = some (some chunkA) := by
  decide

/-- C2 (LRU order scenario), evaluated: with capacity 2, after
`put(0,1,A); put(1,2,B); get(0,1); put(2,3,C)` the call `get(1,2)` returns
`B` (the entry of range (1,2) was not evicted) and `get(0,1)` returns `C`
(the entry of key 1 holding `A` was evicted, and key(2,3) = key(0,1) = 1). -/
theorem lru_order_scenario_evicts_first_put :
    (chunkA ≠ chunkB ∧ chunkA ≠ chunkC ∧ chunkB ≠ chunkC) ∧
    getAfter (empty 2) lruOrderScenario 1 2 = some (some chunkB) ∧
    getAfter (empty 2) lruOrderScenario 0 1 = some (some chunkC) ∧
    key 2 3 = key 0 1 := by
  decide

/-- C3 (eviction count): for capacity `c ≥ 1`, after `put` on `c + k` ranges
with pairwise distinct keys starting from the empty cache, the run is defined,
the storage map has exactly `c` entries with pairwise distinct keys, its keys
are exactly the keys of the last `c` calls, `get` on each of the last `c`
ranges returns the chunk it was put with, and `get` on each of the first `k`
ranges returns absent. -/
theorem eviction_count (c k : Nat) (hc : 1 ≤ c) (ps : List (Int × Int × Chunk))
    (hlen : ps.length = c + k) (hnd : (ps.map (fun p => key p.1 p.2.1)).Nodup) :
    ∃ s, run (empty c) (puts ps) = some s ∧
      s._cdata.length = c ∧ (umKeys s._cdata).Nodup ∧
      (∀ x, x ∈ umKeys s._cdata ↔ x ∈ (ps.drop k).map (fun p => key p.1 p.2.1)) ∧
      (∀ p ∈ ps.drop k, (get s p.1 p.2.1).1 = some p.2.2) ∧
      (∀ p ∈ ps.take k, (get s p.1 p.2.1).1 = none) := by
  obtain ⟨s, hrun, hcd, _, _, hnd'⟩ := run_puts_window c hc ps hnd
  have hk : ps.length - c = k := by omega
  rw [hk] at hcd hnd'
  have hkeys : umKeys s._cdata = (ps.drop k).map (fun p => key p.1 p.2.1) := by
    rw [hcd, umKeys, List.map_map, List.map_map]; rfl
  have hkv : (List.map kv (List.drop k ps)).map Prod.fst =
      (ps.drop k).map (fun p => key p.1 p.2.1) := by
    rw [List.map_map]; rfl
  rw [hkv] at hnd'
  refine ⟨s, hrun, ?_, ?_, ?_, ?_, ?_⟩
  · rw [hcd]; simp; omega
  · rw [hkeys]; exact hnd'
  · intro x; rw [hkeys]
  · intro p hp
    have hm : (key p.1 p.2.1, Node.ofData p.2.2) ∈ s._cdata := by
      rw [hcd]
      exact List.mem_map.mpr ⟨kv p, List.mem_map.mpr ⟨p, hp, rfl⟩, rfl⟩
    have hf := umFind_of_mem s._cdata _ _ (by rw [hkeys]; exact hnd') hm
    simp [get, hf, Node.ofData]
  · intro p hp
    rw [get_fst_eq_none, hkeys]
    intro hm
    have hsplit : (ps.take k ++ ps.drop k).map (fun p => key p.1 p.2.1) =
        ps.map (fun p => key p.1 p.2.1) := by rw [List.take_append_drop]
    rw [← hsplit, List.map_append, List.nodup_append] at hnd
    exact hnd.2.2 (List.mem_map.mpr ⟨p, hp, rfl⟩) hm

/-- Witness of C3: capacity 2 and three ranges with the keys 1, 3 and 4. -/
theorem eviction_count_witness :
    (1 ≤ 2 ∧ [(0, 1, chunkA), (1, 2, chunkB), (0, 4, chunkC)].length = 2 + 1 ∧
      ([(0, 1, chunkA), (1, 2, chunkB), (0, 4, chunkC)].map
        (fun p => key p.1 p.2.1)).Nodup) ∧
    ∃ s, run (empty 2) (puts [(0, 1, chunkA), (1, 2, chunkB), (0, 4, chunkC)]) = some s ∧
      s._cdata.length = 2 ∧ (umKeys s._cdata).Nodup ∧
      (∀ x, x ∈ umKeys s._cdata ↔
        x ∈ (List.drop 1 [(0, 1, chunkA), (1, 2, chunkB), (0, 4, chunkC)]).map
          (fun p => key p.1 p.2.1)) ∧
      (∀ p ∈ List.drop 1 [(0, 1, chunkA), (1, 2, chunkB), (0, 4, chunkC)],
        (get s p.1 p.2.1).1 = some p.2.2) ∧
      (∀ p ∈ List.take 1 [(0, 1, chunkA), (1, 2, chunkB), (0, 4, chunkC)],
        (get s p.1 p.2.1).1 = none) :=
  ⟨by decide,
   eviction_count 2 1 (by decide) [(0, 1, chunkA), (1, 2, chunkB), (0, 4, chunkC)]
    (by decide) (by decide)⟩

/-- C4 (capacity bound): for capacity `c ≥ 1` and every sequence of `put`
calls with pairwise distinct keys applied to the empty cache, after each call
of the sequence (after the first `n` calls, for every `n`) the run is defined
and the storage map has at most `c` entries. -/
theorem capacity_bound (c : Nat) (hc : 1 ≤ c) (ps : List (Int × Int × Chunk))
    (hnd : (ps.map (fun p => key p.1 p.2.1)).Nodup) (n : Nat) :
    ∃ s, run (empty c) (puts (ps.take n)) = some s ∧ s._cdata.length ≤ c := by
  have hnd1 : ((ps.take n).map (fun p => key p.1 p.2.1)).Nodup := by
    rw [← List.take_append_drop n ps, List.map_append, List.nodup_append] at hnd
    exact hnd.1
  obtain ⟨s, hrun, hcd, _⟩ := run_puts_window c hc (ps.take n) hnd1
  refine ⟨s, hrun, ?_⟩
  rw [hcd]
  simp only [List.length_map, List.length_drop]
  omega

/-- Witness of C4: capacity 2, three ranges with the keys 1, 3 and 4, after
all three calls. -/
theorem capacity_bound_witness :
    (1 ≤ 2 ∧ ([(0, 1, chunkA), (1, 2, chunkB), (0, 4, chunkC)].map
        (fun p => key p.1 p.2.1)).Nodup) ∧
    ∃ s, run (empty 2)
        (puts (List.take 3 [(0, 1, chunkA), (1, 2, chunkB), (0, 4, chunkC)])) = some s ∧
      s._cdata.length ≤ 2 :=
  ⟨by decide,
   capacity_bound 2 (by decide) [(0, 1, chunkA), (1, 2, chunkB), (0, 4, chunkC)] (by decide) 3⟩


/-- C5 (zero capacity), evaluated where it fails: with capacity 0, `put(0,1,A)`
on the empty cache runs to a state whose storage map holds one entry, more
than `_size = 0`, and on which `get(0,1)` returns `A`. -/
theorem zero_capacity_retains_first_put :
    (run (empty 0) [Call.put 0 1 chunkA]).map (fun s => s._cdata.length) = some 1 ∧
    (run (empty 0) [Call.put 0 1 chunkA]).map
        (fun s => decide (s._cdata.length ≤ s._size)) = some false ∧
    getAfter (empty 0) [Call.put 0 1 chunkA] 0 1 = some (some chunkA) := by
  decide

/-- C6 (put on a resident key), evaluated where it fails: with capacity 2,
after `put(0,1,A); put(1,2,B)` the keys 1 and 3 are resident and the cache is
full; `put(1,2,C)` on the resident key 3 evicts key 1 and leaves the chunk
under key 3 at `B`: the storage map then holds the single entry (3, B). -/
theorem put_resident_on_full_cache_evicts_and_keeps_old_chunk :
    chunkB ≠ chunkC ∧
    (run (empty 2) [Call.put 0 1 chunkA, Call.put 1 2 chunkB]).map
        (fun s => s._cdata) = some [(1, Node.ofData chunkA), (3, Node.ofData chunkB)] ∧
    (run (empty 2) [Call.put 0 1 chunkA, Call.put 1 2 chunkB, Call.put 1 2 chunkC]).map
        (fun s => s._cdata) = some [(3, Node.ofData chunkB)] := by
  decide

/-- C7 (get hit refreshes recency), evaluated where it fails: with capacity 2,
after `put(0,1,A); put(1,2,B)` the call `get(0,1)` returns `A` and leaves the
state as it was; the ledger still lists key 1 before key 3, so its tail is the
entry of key 3 and not the entry of key(0,1) = 1. -/
theorem get_hit_leaves_ledger_unchanged :
    (run (empty 2) [Call.put 0 1 chunkA, Call.put 1 2 chunkB]).map
        (fun s => ((get s 0 1).1, decide ((get s 0 1).2 = s),
          (get s 0 1).2._times.map (fun c => c.item._k))) =
      some (some chunkA, true, [1, 3]) ∧
    key 0 1 = 1 := by
  decide

/-- C8 (get miss): in every state, `get(bb,be)` returns absent exactly when
the key of `(bb,be)` has no entry in the storage map, and when it returns
absent the storage map, the ledger and the index are as before the call. -/
theorem get_miss (s : LRU) (bb be : Int) :
    ((get s bb be).1 = none ↔ key bb be ∉ umKeys s._cdata) ∧
    ((get s bb be).1 = none →
      (get s bb be).2._cdata = s._cdata ∧ (get s bb be).2._times = s._times ∧
      (get s bb be).2._tindex = s._tindex) := by
  refine ⟨get_fst_eq_none s bb be, ?_⟩
  intro _
  unfold get
  split <;> exact ⟨rfl, rfl, rfl⟩

/-- Witness of C8: `get(1,2)` after `put(0,1,A)` at capacity 2. -/
theorem get_miss_witness :
    (get ⟨2, [(1, Node.ofData chunkA)], [⟨0, ⟨0, 1⟩⟩], [(1, 0)], 1, 1⟩ 1 2).1 = none ∧
    (get ⟨2, [(1, Node.ofData chunkA)], [⟨0, ⟨0, 1⟩⟩], [(1, 0)], 1, 1⟩ 1 2).2._cdata =
      [(1, Node.ofData chunkA)] ∧
    (get ⟨2, [(1, Node.ofData chunkA)], [⟨0, ⟨0, 1⟩⟩], [(1, 0)], 1, 1⟩ 1 2).2._times =
      [⟨0, ⟨0, 1⟩⟩] ∧
    (get ⟨2, [(1, Node.ofData chunkA)], [⟨0, ⟨0, 1⟩⟩], [(1, 0)], 1, 1⟩ 1 2).2._tindex =
      [(1, 0)] :=
  ⟨by decide,
   (get_miss ⟨2, [(1, Node.ofData chunkA)], [⟨0, ⟨0, 1⟩⟩], [(1, 0)], 1, 1⟩ 1 2).2 (by decide)⟩

/-- C9 (idempotent hit): in every state in which the key of `(bb,be)` is
resident, with stored node `f`, any number `n` of consecutive calls
`get(bb,be)` (`n ≥ 1` in particular) all return `f.data`, and the storage map
has as many entries after them as before. -/
theorem idempotent_hit (s : LRU) (bb be : Int) (hres : key bb be ∈ umKeys s._cdata)
    (n : Nat) :
    ∃ f, umFind s._cdata (key bb be) = some f ∧
      (getN s bb be n).1 = List.replicate n (some f.data) ∧
      (getN s bb be n).2._cdata.length = s._cdata.length := by
  cases hf : umFind s._cdata (key bb be) with
  | none => exact absurd hres ((umFind_eq_none _ _).mp hf)
  | some f =>
    refine ⟨f, rfl, ?_⟩
    have hg : get s bb be = (some f.data, s) := by simp [get, hf]
    induction n with
    | zero => exact ⟨rfl, rfl⟩
    | succ n ih =>
      simp only [getN, hg, List.replicate_succ]
      exact ⟨by rw [ih.1], ih.2⟩

/-- Witness of C9: three calls `get(0,1)` after `put(0,1,A)` at capacity 2. -/
theorem idempotent_hit_witness :
    key 0 1 ∈ umKeys [(1, Node.ofData chunkA)] ∧
    ∃ f, umFind [(1, Node.ofData chunkA)] (key 0 1) = some f ∧
      (getN ⟨2, [(1, Node.ofData chunkA)], [⟨0, ⟨0, 1⟩⟩], [(1, 0)], 1, 1⟩ 0 1 3).1 =
        List.replicate 3 (some f.data) ∧
      (getN ⟨2, [(1, Node.ofData chunkA)], [⟨0, ⟨0, 1⟩⟩], [(1, 0)], 1, 1⟩ 0 1 3).2._cdata.length
        = 1 :=
  ⟨by decide,
   idempotent_hit ⟨2, [(1, Node.ofData chunkA)], [⟨0, ⟨0, 1⟩⟩], [(1, 0)], 1, 1⟩ 0 1
    (by decide) 3⟩

/-- C11 (key collision returns the wrong chunk): for all integers `a` and `b`,
`key(a,b) = key(b,a)`; and for every capacity `c` (so for every `c ≥ 1`) and
every chunk `D`, `put(a,b,D)` on the empty cache runs to a state on which
`get(b,a)` returns `D`, also when `a` and `b` differ. -/
theorem key_collision_returns_other_chunk (a b : Int) :
    key a b = key b a ∧
    ∀ (c : Nat) (D : Chunk), ∃ s, put (empty c) a b D = some s ∧ (get s b a).1 = some D := by
  refine ⟨int_xor_comm a b, ?_⟩
  intro c D
  obtain ⟨s, hp, ht, _⟩ := tracks_put_fresh (empty c) [] a b D (tracks_empty c) (by simp)
  refine ⟨s, hp, ?_⟩
  have hcd : s._cdata = [(key a b, Node.ofData D)] := by
    have := ht.1
    simpa [slide] using this
  have hk : key b a = key a b := int_xor_comm b a
  simp [get, hcd, hk, umFind, Node.ofData]

/-- C13 (ledger order), evaluated where it fails: with capacity 3, after
`put(0,1,A); put(1,2,B); put(0,1,C)` the ledger lists key 3 with access time 1
and then key 1 with access time 0: the times decrease from head to tail, and
the entry of key 1 carries the time of its first `put`, not of its last. -/
theorem ledger_times_decrease_after_second_put_of_key :
    (run (empty 3) [Call.put 0 1 chunkA, Call.put 1 2 chunkB, Call.put 0 1 chunkC]).map
        (fun s => s._times.map (fun c => (c.item._k, c.item._laccess))) =
      some [(3, 1), (1, 0)] := by
  decide

/-- C18 (adjacent ranges collide): for every even integer `n ≥ 0`,
`key(n, n+1) = 1`, and for every even integer `i ≥ 0`,
`key(128*i, 128*(i+1)) = 128 = CHUNK_SIZE`. -/
theorem adjacent_ranges_collide :
    (∀ n : Int, 0 ≤ n → Even n → key n (n + 1) = 1) ∧
    (∀ i : Int, 0 ≤ i → Even i → key (128 * i) (128 * (i + 1)) = (CHUNK_SIZE : Int) ∧
      (CHUNK_SIZE : Int) = 128) := by
  constructor
  · intro n h0 he
    obtain ⟨m, hm⟩ := int_even_nonneg n h0 he
    have h1 : n + 1 = ((2 * m + 1 : Nat) : Int) := by rw [hm]; push_cast; ring
    rw [h1, hm]
    show ((((2 * m) ^^^ (2 * m + 1) : Nat)) : Int) = 1
    rw [nat_even_xor_succ]
    rfl
  · intro i h0 he
    obtain ⟨m, hm⟩ := int_even_nonneg i h0 he
    have h1 : 128 * i = ((128 * (2 * m) : Nat) : Int) := by rw [hm]; push_cast; ring
    have h2 : 128 * (i + 1) = ((128 * (2 * m + 1) : Nat) : Int) := by rw [hm]; push_cast; ring
    rw [h1, h2]
    refine ⟨?_, rfl⟩
    show ((((128 * (2 * m)) ^^^ (128 * (2 * m + 1)) : Nat)) : Int) = _
    rw [nat_chunk_xor]
    rfl

/-- Witness of C18: the ranges (6,7) and (256,384). -/
theorem adjacent_ranges_collide_witness :
    ((0 : Int) ≤ 6 ∧ Even (6 : Int) ∧ key 6 (6 + 1) = 1) ∧
    ((0 : Int) ≤ 2 ∧ Even (2 : Int) ∧ key (128 * 2) (128 * (2 + 1)) = (CHUNK_SIZE : Int) ∧
      (CHUNK_SIZE : Int) = 128) :=
  ⟨⟨by decide, by decide, adjacent_ranges_collide.1 6 (by decide) (by decide)⟩,
   ⟨by decide, by decide, adjacent_ranges_collide.2 2 (by decide) (by decide)⟩⟩

/-- C19 (eviction only on exact equality): `put` runs `_lru_policy` exactly
when the storage map has `_size` entries at entry; hence with `_size = 0`,
starting from the empty cache, `put` on ranges with pairwise distinct keys
(any number of them) runs to a state whose storage map has one entry for
each of them, with exactly their keys, and `get` on each range returns the
chunk it was put with: nothing is evicted. -/
theorem eviction_only_on_exact_equality :
    (∀ (s : LRU) (bb be : Int) (d : Chunk),
      put s bb be d =
        (_update_key_last_access (if s._cdata.length = s._size then _lru_policy s else s)
          (key bb be)).map
          (fun s2 => { s2 with _cdata := umEmplace s2._cdata (key bb be) (Node.ofData d) })) ∧
    (∀ ps : List (Int × Int × Chunk), (ps.map (fun p => key p.1 p.2.1)).Nodup →
      ∃ s, run (empty 0) (puts ps) = some s ∧
        s._cdata.length = ps.length ∧
        umKeys s._cdata = ps.map (fun p => key p.1 p.2.1) ∧
        ∀ p ∈ ps, (get s p.1 p.2.1).1 = some p.2.2) := by
  constructor
  · intro s bb be d
    unfold put
    simp only
    cases _update_key_last_access (if s._cdata.length = s._size then _lru_policy s else s)
      (key bb be) <;> rfl
  · intro ps hnd
    obtain ⟨s, hrun, ht, _⟩ := run_puts_tracks 0 ps (empty 0) [] (tracks_empty 0) rfl
      (by simpa using hnd)
    rw [slide_zero, List.nil_append] at ht
    have hcd := ht.1
    have hkeys : umKeys s._cdata = ps.map (fun p => key p.1 p.2.1) := by
      rw [hcd, umKeys, List.map_map, List.map_map]; rfl
    refine ⟨s, hrun, by rw [hcd]; simp, hkeys, ?_⟩
    intro p hp
    have hm : (key p.1 p.2.1, Node.ofData p.2.2) ∈ s._cdata := by
      rw [hcd]
      exact List.mem_map.mpr ⟨kv p, List.mem_map.mpr ⟨p, hp, rfl⟩, rfl⟩
    have hf := umFind_of_mem s._cdata _ _ (by rw [hkeys]; exact hnd) hm
    simp [get, hf, Node.ofData]

/-- Witness of C19: three ranges with the keys 1, 3 and 4 at capacity 0. -/
theorem eviction_only_on_exact_equality_witness :
    ([(0, 1, chunkA), (1, 2, chunkB), (0, 4, chunkC)].map
        (fun p => key p.1 p.2.1)).Nodup ∧
    ∃ s, run (empty 0) (puts [(0, 1, chunkA), (1, 2, chunkB), (0, 4, chunkC)]) = some s ∧
      s._cdata.length = [(0, 1, chunkA), (1, 2, chunkB), (0, 4, chunkC)].length ∧
      umKeys s._cdata =
        [(0, 1, chunkA), (1, 2, chunkB), (0, 4, chunkC)].map (fun p => key p.1 p.2.1) ∧
      ∀ p ∈ [(0, 1, chunkA), (1, 2, chunkB), (0, 4, chunkC)],
        (get s p.1 p.2.1).1 = some p.2.2 :=
  ⟨by decide,
   eviction_only_on_exact_equality.2 [(0, 1, chunkA), (1, 2, chunkB), (0, 4, chunkC)]
    (by decide)⟩


/-- C15 (eviction step): when the ledger is empty `_lru_policy` leaves the
state as it is.  When the ledger is `c :: rest` and the three structures hold
the same key set without duplicates, `_lru_policy` leaves the ledger `rest`
(the head gone, the other entries in their order), the index and the storage
map each have one entry less, neither has an entry for the key of `c`, every
other key keeps its index entry and its node, the three structures again hold
the same key set, and the capacity is unchanged. -/
theorem lru_policy_removes_exactly_the_head (s : LRU) :
    (s._times = [] → _lru_policy s = s) ∧
    (∀ c rest, s._times = c :: rest →
      (ledgerKeys s).Nodup → (umKeys s._tindex).Nodup → (umKeys s._cdata).Nodup →
      (∀ x, x ∈ umKeys s._tindex ↔ x ∈ ledgerKeys s) →
      (∀ x, x ∈ umKeys s._cdata ↔ x ∈ ledgerKeys s) →
      (_lru_policy s)._times = rest ∧
      (_lru_policy s)._times.length + 1 = s._times.length ∧
      (_lru_policy s)._tindex.length + 1 = s._tindex.length ∧
      (_lru_policy s)._cdata.length + 1 = s._cdata.length ∧
      umFind (_lru_policy s)._tindex c.item._k = none ∧
      umFind (_lru_policy s)._cdata c.item._k = none ∧
      (∀ x, x ≠ c.item._k →
        umFind (_lru_policy s)._tindex x = umFind s._tindex x ∧
        umFind (_lru_policy s)._cdata x = umFind s._cdata x) ∧
      (∀ x, x ∈ umKeys (_lru_policy s)._tindex ↔ x ∈ ledgerKeys (_lru_policy s)) ∧
      (∀ x, x ∈ umKeys (_lru_policy s)._cdata ↔ x ∈ ledgerKeys (_lru_policy s)) ∧
      (_lru_policy s)._size = s._size) := by
  constructor
  · intro h
    simp [_lru_policy, h]
  · intro c rest h hnl hni hnc hi hc
    have hp : _lru_policy s =
        { s with _times := rest
                 _tindex := umErase s._tindex c.item._k
                 _cdata := umErase s._cdata c.item._k } := by
      simp [_lru_policy, h]
    have hmem : c.item._k ∈ ledgerKeys s := by simp [ledgerKeys, h]
    have hnl' : c.item._k ∉ rest.map (fun c => c.item._k) ∧
        (rest.map (fun c => c.item._k)).Nodup := by
      simpa [ledgerKeys, h] using hnl
    have hrest : ∀ x, x ∈ rest.map (fun c => c.item._k) ↔ x ∈ ledgerKeys s ∧ x ≠ c.item._k := by
      intro x
      simp only [ledgerKeys, h, List.map_cons, List.mem_cons]
      constructor
      · intro hx
        exact ⟨Or.inr hx, fun e => hnl'.1 (e ▸ hx)⟩
      · rintro ⟨hx | hx, hne⟩
        · exact absurd hx hne
        · exact hx
    rw [hp]
    refine ⟨rfl, by simp [h], ?_, ?_, ?_, ?_, ?_, ?_, ?_, rfl⟩
    · exact length_umErase _ _ hni ((hi _).mpr hmem)
    · exact length_umErase _ _ hnc ((hc _).mpr hmem)
    · exact umFind_umErase_self _ _
    · exact umFind_umErase_self _ _
    · intro x hx
      exact ⟨umFind_umErase_ne _ _ _ hx, umFind_umErase_ne _ _ _ hx⟩
    · intro x
      simp only [ledgerKeys]
      rw [mem_umKeys_umErase, hrest, hi]
    · intro x
      simp only [ledgerKeys]
      rw [mem_umKeys_umErase, hrest, hc]

/-- Witness of C15: the state after `put(0,1,A); put(1,2,B)` at capacity 2. -/
theorem lru_policy_removes_exactly_the_head_witness :
    run (empty 2) [Call.put 0 1 chunkA, Call.put 1 2 chunkB] =
      some ⟨2, [(1, Node.ofData chunkA), (3, Node.ofData chunkB)],
        [⟨0, ⟨0, 1⟩⟩, ⟨1, ⟨1, 3⟩⟩], [(1, 0), (3, 1)], 2, 2⟩ ∧
    (_lru_policy ⟨2, [(1, Node.ofData chunkA), (3, Node.ofData chunkB)],
        [⟨0, ⟨0, 1⟩⟩, ⟨1, ⟨1, 3⟩⟩], [(1, 0), (3, 1)], 2, 2⟩)._times = [⟨1, ⟨1, 3⟩⟩] ∧
    (_lru_policy ⟨2, [(1, Node.ofData chunkA), (3, Node.ofData chunkB)],
        [⟨0, ⟨0, 1⟩⟩, ⟨1, ⟨1, 3⟩⟩], [(1, 0), (3, 1)], 2, 2⟩)._tindex.length + 1 = 2 ∧
    (_lru_policy ⟨2, [(1, Node.ofData chunkA), (3, Node.ofData chunkB)],
        [⟨0, ⟨0, 1⟩⟩, ⟨1, ⟨1, 3⟩⟩], [(1, 0), (3, 1)], 2, 2⟩)._cdata.length + 1 = 2 :=
  have h := (lru_policy_removes_exactly_the_head
      ⟨2, [(1, Node.ofData chunkA), (3, Node.ofData chunkB)],
        [⟨0, ⟨0, 1⟩⟩, ⟨1, ⟨1, 3⟩⟩], [(1, 0), (3, 1)], 2, 2⟩).2 ⟨0, ⟨0, 1⟩⟩ [⟨1, ⟨1, 3⟩⟩] rfl
      (by decide) (by decide) (by decide)
      (by intro x; simp [umKeys, ledgerKeys]) (by intro x; simp [umKeys, ledgerKeys])
  ⟨by decide, h.1, h.2.2.1, h.2.2.2.1⟩



end LRUCache
